import Mathlib

/-!
Verification of the fast-fuzzy string matching library.

The library's public surface is two functions: `fuzzy a b normalize`, an
edit-distance based similarity score in `[0, 1]`, and
`search query candidates options`, which scores every candidate against the
query, filters by a threshold, sorts by descending score (stable) and
truncates to an optional limit.  The repository ships only the test suite for
`index.js`; the implementation itself is modelled here from the
specification's contract, faithfully to its words.
-/

set_option maxRecDepth 200000

namespace FastFuzzy

/-- Modelled from the spec: the Normalizer's diacritic stripping
("decompose Unicode combining sequences and strip combining marks/diacritics").
`index.js` is not in the repository sources; this per-character accent folding
realises the spec's required behavior that accented and unaccented variants
compare as identical (e.g. `é ↦ e`, `ï ↦ i`). -/
def foldDiacritic (c : Char) : Char :=
  match c with
  | 'à' | 'á' | 'â' | 'ã' | 'ä' | 'å' => 'a'
  | 'è' | 'é' | 'ê' | 'ë' => 'e'
  | 'ì' | 'í' | 'î' | 'ï' => 'i'
  | 'ò' | 'ó' | 'ô' | 'õ' | 'ö' => 'o'
  | 'ù' | 'ú' | 'û' | 'ü' => 'u'
  | 'ç' => 'c'
  | 'ñ' => 'n'
  | 'ý' | 'ÿ' => 'y'
  | 'À' | 'Á' | 'Â' | 'Ã' | 'Ä' | 'Å' => 'A'
  | 'È' | 'É' | 'Ê' | 'Ë' => 'E'
  | 'Ì' | 'Í' | 'Î' | 'Ï' => 'I'
  | 'Ò' | 'Ó' | 'Ô' | 'Õ' | 'Ö' => 'O'
  | 'Ù' | 'Ú' | 'Û' | 'Ü' => 'U'
  | 'Ç' => 'C'
  | 'Ñ' => 'N'
  | 'Ý' => 'Y'
  | _ => c

/-- Modelled from the spec (§4.1): the Normalizer's Unicode normalization,
stripping diacritical marks character by character; total on every string,
mapping the empty string to the empty string. -/
def normalizeStr (s : String) : String :=
  String.mk (s.toList.map foldDiacritic)

/-- Modelled from the spec (§4.1): the Normalizer's case folding
("fold to a single case"). -/
def caseFold (s : String) : String :=
  String.mk (s.toList.map Char.toLower)

/-- Unit-cost Levenshtein edit distance between two strings: insertion,
deletion and substitution each cost 1 (the spec's §4.2 general case). -/
def editDistance (a b : String) : ℕ :=
  levenshtein Levenshtein.defaultCost a.toList b.toList

/-- Clamp a rational into the interval `[0, 1]` (the spec's
"clamped to [0, 1]"). -/
def clamp01 (q : ℚ) : ℚ :=
  if q < 0 then 0 else if 1 < q then 1 else q

/-- Apply the Normalizer's diacritic stripping when the flag demands it. -/
def normalizeIf (norm : Bool) (s : String) : String :=
  if norm then normalizeStr s else s

/-- Modelled from the spec (§4.2): the score of two already-normalized
strings.  Edge cases as the contract demands: two empty strings score `1.0`,
an empty against a non-empty string scores `0.0`; otherwise the score is
`1 - distance / max(len a, len b)` clamped into `[0, 1]`, with `distance` the
unit-cost edit distance. -/
def rawScore (a b : String) : ℚ :=
  if a.length = 0 ∧ b.length = 0 then 1
  else if a.length = 0 ∨ b.length = 0 then 0
  else clamp01 (1 - (editDistance a b : ℚ) / (Nat.max a.length b.length : ℚ))

/-- Modelled from the spec (§4.2): the similarity scorer
`fuzzy(a, b, normalize=false)`.  `index.js` is not in the repository sources.
If `normalize` is true both strings pass through the Normalizer's diacritic
stripping first, then the edit-distance based score is taken.  Scores are
exact rationals, standing for the spec's floats. -/
def fuzzy (a b : String) (normalize : Bool) : ℚ :=
  rawScore (normalizeIf normalize a) (normalizeIf normalize b)

/-- Modelled from the spec (§3): the recognized search options.  `threshold`
is the minimum score kept (default `0`), `limit` the maximum number of results
(`none` means unbounded, the default), `ignoreCase` folds case before
comparison (default true), `normalize` strips diacritics before comparison
(default false). -/
structure SearchOptions where
  threshold : ℚ
  limit : Option ℕ
  ignoreCase : Bool
  normalize : Bool
deriving DecidableEq, Repr

/-- The spec's default options: threshold `0`, no limit, case-insensitive,
no Unicode normalization. -/
def defaultOptions : SearchOptions :=
  ⟨0, none, true, false⟩

/-- Modelled from the spec (§3): a search Result, the original candidate
string paired with its score. -/
structure SearchResult where
  item : String
  score : ℚ
deriving DecidableEq, Repr

/-- Apply the Normalizer's case folding when the flag demands it. -/
def caseFoldIf (b : Bool) (s : String) : String :=
  if b then caseFold s else s

/-- Modelled from the spec (§4.3 step 1): the comparison form of a string,
case-folded when `ignoreCase` and normalized when `normalize`. -/
def comparisonForm (opts : SearchOptions) (s : String) : String :=
  normalizeIf opts.normalize (caseFoldIf opts.ignoreCase s)

/-- Modelled from the spec (§4.3 step 2): score every candidate, keeping the
original candidate text as `item`; the scorer's own normalize flag is not
re-triggered since the comparison forms are already normalized. -/
def scoreAll (query : String) (candidates : List String) (opts : SearchOptions) :
    List SearchResult :=
  candidates.map fun c =>
    ⟨c, fuzzy (comparisonForm opts query) (comparisonForm opts c) false⟩

/-- Modelled from the spec (§4.3 step 3): keep candidates whose score is at
least the threshold. -/
def keep (opts : SearchOptions) (rs : List SearchResult) : List SearchResult :=
  rs.filter fun r => decide (opts.threshold ≤ r.score)

/-- Insert a result into a list already sorted by descending score, before the
first element whose score does not exceed it (so that, inserting earlier
candidates last, equal scores keep their original order). -/
def insertDesc (r : SearchResult) : List SearchResult → List SearchResult
  | [] => [r]
  | x :: xs => if x.score ≤ r.score then r :: x :: xs else x :: insertDesc r xs

/-- Modelled from the spec (§4.3 step 4): stable sort by descending score. -/
def sortDesc : List SearchResult → List SearchResult
  | [] => []
  | r :: rs => insertDesc r (sortDesc rs)

/-- Modelled from the spec (§4.3 step 5): truncate to `limit` entries when
provided, unlimited otherwise. -/
def truncate (limit : Option ℕ) (rs : List SearchResult) : List SearchResult :=
  match limit with
  | none => rs
  | some n => rs.take n

/-- Modelled from the spec (§4.3): the search engine pipeline — score, filter
by threshold, stable sort descending, truncate. -/
def search (query : String) (candidates : List String) (opts : SearchOptions) :
    List SearchResult :=
  truncate opts.limit (sortDesc (keep opts (scoreAll query candidates opts)))

/-- The test suite's candidate list. -/
def testData : List String :=
  ["apple", "application", "apply", "appreciate", "banana", "grape",
   "pineapple", "watermelon"]

/-! ### Basic lemmas about the edit distance and the score -/

theorem levenshtein_default_nil_left (l : List Char) :
    levenshtein Levenshtein.defaultCost ([] : List Char) l = l.length := by
  induction l with
  | nil => simp
  | cons y ys ih => simp [ih, Nat.add_comm]

theorem levenshtein_default_nil_right (l : List Char) :
    levenshtein Levenshtein.defaultCost l ([] : List Char) = l.length := by
  induction l with
  | nil => simp
  | cons x xs ih => simp [ih, Nat.add_comm]

theorem levenshtein_default_self (l : List Char) :
    levenshtein Levenshtein.defaultCost l l = 0 := by
  induction l with
  | nil => simp
  | cons x xs ih => simp [ih, Nat.min_zero]

theorem editDistance_self (s : String) : editDistance s s = 0 :=
  levenshtein_default_self s.toList

theorem editDistance_empty_left (s : String) : editDistance "" s = s.length :=
  levenshtein_default_nil_left s.toList

theorem editDistance_empty_right (s : String) : editDistance s "" = s.length :=
  levenshtein_default_nil_right s.toList

theorem clamp01_nonneg (q : ℚ) : 0 ≤ clamp01 q := by
  unfold clamp01
  split
  · exact le_refl 0
  · split
    · exact zero_le_one
    · linarith [not_lt.mp (by assumption : ¬ q < 0)]

theorem clamp01_le_one (q : ℚ) : clamp01 q ≤ 1 := by
  unfold clamp01
  split
  · exact zero_le_one
  · split
    · exact le_refl 1
    · linarith [not_lt.mp (by assumption : ¬ (1 : ℚ) < q)]

theorem string_eq_empty_of_length_eq_zero {s : String} (h : s.length = 0) : s = "" := by
  cases s with
  | mk d =>
    have hd : d = [] := List.length_eq_zero.mp h
    simp [hd]

theorem clamp01_one : clamp01 1 = 1 := by norm_num [clamp01]

theorem clamp01_zero : clamp01 0 = 0 := by norm_num [clamp01]

/-- The same string scores `1` against itself, empty or not. -/
theorem rawScore_self (s : String) : rawScore s s = 1 := by
  unfold rawScore
  by_cases hz : s.length = 0
  · rw [if_pos ⟨hz, hz⟩]
  · rw [if_neg (fun h => hz h.1), if_neg (fun h => h.elim hz hz), editDistance_self,
      Nat.cast_zero, zero_div, sub_zero, clamp01_one]

theorem rawScore_nonneg (a b : String) : 0 ≤ rawScore a b := by
  unfold rawScore
  split
  · exact zero_le_one
  · split
    · exact le_refl 0
    · exact clamp01_nonneg _

theorem rawScore_le_one (a b : String) : rawScore a b ≤ 1 := by
  unfold rawScore
  split
  · exact le_refl 1
  · split
    · exact zero_le_one
    · exact clamp01_le_one _

/-- The edge cases of the scorer coincide with the clamped
`1 - distance / max(len, len)` formula, so the formula describes every
case of `rawScore` (in `ℚ`, division by the `0` denominator yields `0`). -/
theorem rawScore_eq_formula (a b : String) :
    rawScore a b =
      clamp01 (1 - (editDistance a b : ℚ) / (Nat.max a.length b.length : ℚ)) := by
  by_cases ha : a.length = 0
  · have ha' : a = "" := string_eq_empty_of_length_eq_zero ha
    subst ha'
    by_cases hb : b.length = 0
    · have hb' : b = "" := string_eq_empty_of_length_eq_zero hb
      subst hb'
      unfold rawScore
      rw [if_pos ⟨rfl, rfl⟩, editDistance_self, Nat.cast_zero, zero_div, sub_zero, clamp01_one]
    · unfold rawScore
      rw [if_neg (fun h => hb h.2),
        if_pos (show ("" : String).length = 0 ∨ b.length = 0 from Or.inl rfl),
        editDistance_empty_left]
      have h0 : ("" : String).length = 0 := rfl
      have hmax : Nat.max 0 b.length = b.length := Nat.max_eq_right (Nat.zero_le b.length)
      rw [h0, hmax]
      have hbq : ((b.length : ℚ)) ≠ 0 := by exact_mod_cast hb
      rw [div_self hbq, sub_self, clamp01_zero]
  · by_cases hb : b.length = 0
    · have hb' : b = "" := string_eq_empty_of_length_eq_zero hb
      subst hb'
      unfold rawScore
      rw [if_neg (fun h => ha h.1),
        if_pos (show a.length = 0 ∨ ("" : String).length = 0 from Or.inr rfl),
        editDistance_empty_right]
      have h0 : ("" : String).length = 0 := rfl
      have hmax : Nat.max a.length 0 = a.length := Nat.max_eq_left (Nat.zero_le a.length)
      rw [h0, hmax]
      have haq : ((a.length : ℚ)) ≠ 0 := by exact_mod_cast ha
      rw [div_self haq, sub_self, clamp01_zero]
    · unfold rawScore
      rw [if_neg (fun h => ha h.1), if_neg (fun h => h.elim ha hb)]

theorem fuzzy_of_normalized_eq (a b : String) (norm : Bool)
    (h : normalizeIf norm a = normalizeIf norm b) : fuzzy a b norm = 1 := by
  unfold fuzzy
  rw [h, rawScore_self]

theorem fuzzy_self (s : String) (norm : Bool) : fuzzy s s norm = 1 :=
  fuzzy_of_normalized_eq s s norm rfl

theorem fuzzy_nonneg (a b : String) (norm : Bool) : 0 ≤ fuzzy a b norm :=
  rawScore_nonneg _ _

theorem fuzzy_le_one (a b : String) (norm : Bool) : fuzzy a b norm ≤ 1 :=
  rawScore_le_one _ _

/-! ### Lemmas about the stable insertion sort -/

theorem mem_insertDesc {x r : SearchResult} {l : List SearchResult} :
    x ∈ insertDesc r l ↔ x = r ∨ x ∈ l := by
  induction l with
  | nil => simp [insertDesc]
  | cons a l ih =>
    unfold insertDesc
    split
    · simp [List.mem_cons]
    · simp only [List.mem_cons, ih]
      tauto

theorem insertDesc_perm (r : SearchResult) (l : List SearchResult) :
    List.Perm (insertDesc r l) (r :: l) := by
  induction l with
  | nil => exact List.Perm.refl _
  | cons a l ih =>
    unfold insertDesc
    split
    · exact List.Perm.refl _
    · exact (List.Perm.cons a ih).trans (List.Perm.swap r a l)

theorem sortDesc_perm (l : List SearchResult) : List.Perm (sortDesc l) l := by
  induction l with
  | nil => exact List.Perm.refl _
  | cons r l ih => exact (insertDesc_perm r (sortDesc l)).trans (List.Perm.cons r ih)

theorem pairwise_insertDesc (r : SearchResult) (l : List SearchResult)
    (h : l.Pairwise fun x y => y.score ≤ x.score) :
    (insertDesc r l).Pairwise fun x y => y.score ≤ x.score := by
  induction l with
  | nil => simp [insertDesc]
  | cons a l ih =>
    rw [List.pairwise_cons] at h
    obtain ⟨ha, hl⟩ := h
    unfold insertDesc
    split
    · rename_i hle
      rw [List.pairwise_cons]
      refine ⟨?_, ?_⟩
      · intro b hb
        rcases List.mem_cons.mp hb with hb | hb
        · subst hb; exact hle
        · exact le_trans (ha b hb) hle
      · rw [List.pairwise_cons]; exact ⟨ha, hl⟩
    · rename_i hgt
      rw [List.pairwise_cons]
      refine ⟨?_, ih hl⟩
      intro b hb
      rcases mem_insertDesc.mp hb with hb | hb
      · subst hb; exact le_of_lt (lt_of_not_le hgt)
      · exact ha b hb

theorem pairwise_sortDesc (l : List SearchResult) :
    (sortDesc l).Pairwise fun x y => y.score ≤ x.score := by
  induction l with
  | nil => simp [sortDesc]
  | cons r l ih => exact pairwise_insertDesc r (sortDesc l) ih

theorem filter_insertDesc_of_eq {c : ℚ} {r : SearchResult} (l : List SearchResult)
    (hr : r.score = c) :
    (insertDesc r l).filter (fun x => decide (x.score = c)) =
      r :: l.filter (fun x => decide (x.score = c)) := by
  induction l with
  | nil => simp [insertDesc, hr]
  | cons a l ih =>
    unfold insertDesc
    split
    · rw [List.filter_cons, List.filter_cons]
      simp [hr]
    · rename_i hgt
      have hac : ¬ a.score = c := by
        intro h
        exact hgt (le_of_eq (h.trans hr.symm))
      rw [List.filter_cons, List.filter_cons]
      simp [hac, ih]

theorem filter_insertDesc_of_ne {c : ℚ} {r : SearchResult} (l : List SearchResult)
    (hr : ¬ r.score = c) :
    (insertDesc r l).filter (fun x => decide (x.score = c)) =
      l.filter (fun x => decide (x.score = c)) := by
  induction l with
  | nil => simp [insertDesc, hr]
  | cons a l ih =>
    unfold insertDesc
    split
    · rw [List.filter_cons, List.filter_cons]
      simp [hr]
    · rw [List.filter_cons, List.filter_cons, ih]

theorem filter_sortDesc (c : ℚ) (l : List SearchResult) :
    (sortDesc l).filter (fun x => decide (x.score = c)) =
      l.filter (fun x => decide (x.score = c)) := by
  induction l with
  | nil => rfl
  | cons r l ih =>
    show (insertDesc r (sortDesc l)).filter _ = _
    by_cases hr : r.score = c
    · rw [filter_insertDesc_of_eq (sortDesc l) hr, ih, List.filter_cons]
      simp [hr]
    · rw [filter_insertDesc_of_ne (sortDesc l) hr, ih, List.filter_cons]
      simp [hr]

theorem truncate_sublist (lim : Option ℕ) (l : List SearchResult) :
    List.Sublist (truncate lim l) l := by
  cases lim with
  | none => exact List.Sublist.refl l
  | some n => exact List.take_sublist n l

/-! ### Lemmas about the search pipeline -/

theorem mem_of_mem_search {r : SearchResult} {q : String} {cands : List String}
    {opts : SearchOptions} (h : r ∈ search q cands opts) :
    r ∈ scoreAll q cands opts ∧ opts.threshold ≤ r.score := by
  unfold search at h
  have h1 : r ∈ sortDesc (keep opts (scoreAll q cands opts)) :=
    (truncate_sublist _ _).subset h
  have h2 : r ∈ keep opts (scoreAll q cands opts) := (sortDesc_perm _).mem_iff.mp h1
  unfold keep at h2
  rw [List.mem_filter] at h2
  exact ⟨h2.1, of_decide_eq_true h2.2⟩

theorem mem_search_of_mem {r : SearchResult} {q : String} {cands : List String}
    {opts : SearchOptions} (hlim : opts.limit = none) (hmem : r ∈ scoreAll q cands opts)
    (hthr : opts.threshold ≤ r.score) : r ∈ search q cands opts := by
  unfold search
  rw [hlim]
  show r ∈ sortDesc (keep opts (scoreAll q cands opts))
  rw [(sortDesc_perm _).mem_iff]
  unfold keep
  rw [List.mem_filter]
  exact ⟨hmem, decide_eq_true hthr⟩

theorem score_bounds_of_mem_scoreAll {r : SearchResult} {q : String} {cands : List String}
    {opts : SearchOptions} (h : r ∈ scoreAll q cands opts) : 0 ≤ r.score ∧ r.score ≤ 1 := by
  unfold scoreAll at h
  rw [List.mem_map] at h
  obtain ⟨c, _, hc⟩ := h
  subst hc
  exact ⟨fuzzy_nonneg _ _ _, fuzzy_le_one _ _ _⟩

theorem item_mem_of_mem_scoreAll {r : SearchResult} {q : String} {cands : List String}
    {opts : SearchOptions} (h : r ∈ scoreAll q cands opts) : r.item ∈ cands := by
  unfold scoreAll at h
  rw [List.mem_map] at h
  obtain ⟨c, hc, he⟩ := h
  subst he
  exact hc

theorem self_mem_scoreAll {q c : String} {cands : List String} {opts : SearchOptions}
    (hc : c ∈ cands) (hcomp : comparisonForm opts q = comparisonForm opts c) :
    (⟨c, 1⟩ : SearchResult) ∈ scoreAll q cands opts := by
  unfold scoreAll
  rw [List.mem_map]
  refine ⟨c, hc, ?_⟩
  rw [hcomp, fuzzy_self]

theorem head_score_ge_of_sorted {l : List SearchResult} {r : SearchResult}
    (hs : l.Pairwise fun x y => y.score ≤ x.score) (hr : r ∈ l) :
    ∃ h, l.head? = some h ∧ h ∈ l ∧ r.score ≤ h.score := by
  cases l with
  | nil => cases hr
  | cons a l =>
    refine ⟨a, rfl, List.mem_cons_self a l, ?_⟩
    rcases List.mem_cons.mp hr with h | h
    · subst h; exact le_refl _
    · exact (List.pairwise_cons.mp hs).1 r h

theorem search_pairwise (q : String) (cands : List String) (opts : SearchOptions) :
    (search q cands opts).Pairwise fun x y => y.score ≤ x.score := by
  unfold search
  exact (pairwise_sortDesc (keep opts (scoreAll q cands opts))).sublist
    (truncate_sublist _ _)

theorem comparisonForm_eq_of_caseFold_eq {opts : SearchOptions} {q c : String}
    (hic : opts.ignoreCase = true) (h : caseFold q = caseFold c) :
    comparisonForm opts q = comparisonForm opts c := by
  unfold comparisonForm caseFoldIf
  rw [hic, if_pos rfl, if_pos rfl, h]

/-! ### The claims -/

/-- C1: for every pair of strings and every normalize flag, `fuzzy` equals
the clamped formula `1 - editDistance / max(len, len)` over the (possibly
normalized) strings, with `editDistance` the unit-cost Levenshtein distance;
consequently every returned score lies in `[0, 1]`. -/
theorem fuzzy_levenshtein_score_bounds (a b : String) (norm : Bool) :
    fuzzy a b norm =
      clamp01 (1 - (editDistance (normalizeIf norm a) (normalizeIf norm b) : ℚ) /
        (Nat.max (normalizeIf norm a).length (normalizeIf norm b).length : ℚ)) ∧
      0 ≤ fuzzy a b norm ∧ fuzzy a b norm ≤ 1 :=
  ⟨rawScore_eq_formula _ _, fuzzy_nonneg a b norm, fuzzy_le_one a b norm⟩

/-- C2: two empty strings score exactly `1`; an empty string against a
non-empty one scores exactly `0` in both orders; empty-string inputs are
defined behavior for scoring and searching alike (the model is total, and
searching the empty query over an empty-string candidate yields a result,
not an error). -/
theorem fuzzy_empty_string_behavior :
    fuzzy "" "" false = 1 ∧
      (∀ s : String, s ≠ "" → fuzzy s "" false = 0 ∧ fuzzy "" s false = 0) ∧
      search "" [""] defaultOptions = [⟨"", 1⟩] := by
  refine ⟨fuzzy_self "" false, ?_, by with_unfolding_all decide⟩
  intro s hs
  have hlen : s.length ≠ 0 := fun h => hs (string_eq_empty_of_length_eq_zero h)
  constructor
  · show rawScore s "" = 0
    unfold rawScore
    rw [if_neg (fun h => hlen h.1),
      if_pos (show s.length = 0 ∨ ("" : String).length = 0 from Or.inr rfl)]
  · show rawScore "" s = 0
    unfold rawScore
    rw [if_neg (fun h => hlen h.2),
      if_pos (show ("" : String).length = 0 ∨ s.length = 0 from Or.inl rfl)]

/-- Witness for C2 at the concrete non-empty string "test". -/
theorem fuzzy_empty_string_behavior_witness :
    "test" ≠ "" ∧ fuzzy "test" "" false = 0 ∧ fuzzy "" "test" false = 0 :=
  ⟨by decide, fuzzy_empty_string_behavior.2.1 "test" (by decide)⟩

/-- C3: reflexivity — every non-empty string scores exactly `1` against
itself. -/
theorem fuzzy_reflexive (s : String) : s ≠ "" → fuzzy s s false = 1 :=
  fun _ => fuzzy_self s false

/-- Witness for C3 at the concrete non-empty string "test". -/
theorem fuzzy_reflexive_witness : "test" ≠ "" ∧ fuzzy "test" "test" false = 1 :=
  ⟨by decide, fuzzy_reflexive "test" (by decide)⟩

/-- C4: with the normalize flag set, `fuzzy` folds diacritics before scoring,
so strings equal up to accents compare as identical; in particular
`fuzzy "café" "cafe" true = 1`. -/
theorem fuzzy_normalize_folds_accents :
    (∀ a b : String, normalizeStr a = normalizeStr b → fuzzy a b true = 1) ∧
      normalizeStr "café" = "cafe" ∧ fuzzy "café" "cafe" true = 1 := by
  refine ⟨?_, by decide, by with_unfolding_all decide⟩
  intro a b h
  exact fuzzy_of_normalized_eq a b true (by simpa [normalizeIf] using h)

/-- Witness for C4 at the concrete pair "café" / "cafe". -/
theorem fuzzy_normalize_folds_accents_witness :
    normalizeStr "café" = normalizeStr "cafe" ∧ fuzzy "café" "cafe" true = 1 :=
  ⟨by decide, fuzzy_normalize_folds_accents.1 "café" "cafe" (by decide)⟩

/-- C5 counterexample: the claim "when the query equals a candidate, search
with default options returns that candidate as the first result" fails.  With
the query "apple" and candidates `["APPLE", "apple"]`, the query equals the
second candidate, but under the default case-insensitive comparison both
candidates score `1` and the stable sort keeps the earlier, different string
"APPLE" first. -/
theorem search_exact_match_counterexample :
    "apple" ∈ ["APPLE", "apple"] ∧
      (search "apple" ["APPLE", "apple"] defaultOptions).head? = some ⟨"APPLE", 1⟩ ∧
      ("APPLE" : String) ≠ "apple" :=
  ⟨by decide, by with_unfolding_all decide, by decide⟩

/-- C5 (amended): when the query equals one of the candidates, search with
default options returns a first result whose score is exactly `1`, and the
query-equal candidate itself appears in the results with score `1` (an
earlier candidate with the same comparison form may precede it); in
particular `search "apple" testData` puts `⟨"apple", 1⟩` first. -/
theorem search_exact_match_first_score_one :
    (∀ (q : String) (cands : List String), q ∈ cands →
        (∃ r, (search q cands defaultOptions).head? = some r ∧ r.score = 1) ∧
          (⟨q, 1⟩ : SearchResult) ∈ search q cands defaultOptions) ∧
      (search "apple" testData defaultOptions).head? = some ⟨"apple", 1⟩ := by
  refine ⟨?_, by with_unfolding_all decide⟩
  intro q cands hq
  have hmem : (⟨q, 1⟩ : SearchResult) ∈ scoreAll q cands defaultOptions :=
    self_mem_scoreAll hq rfl
  have hthr : defaultOptions.threshold ≤ (⟨q, (1 : ℚ)⟩ : SearchResult).score := zero_le_one
  have hs : (⟨q, 1⟩ : SearchResult) ∈ search q cands defaultOptions :=
    mem_search_of_mem rfl hmem hthr
  refine ⟨?_, hs⟩
  obtain ⟨h, hh, hhmem, hge⟩ :=
    head_score_ge_of_sorted (search_pairwise q cands defaultOptions) hs
  have hb := score_bounds_of_mem_scoreAll (mem_of_mem_search hhmem).1
  exact ⟨h, hh, le_antisymm hb.2 hge⟩

/-- Witness for C5 (amended) at the concrete query "apple" over
`["apple"]`. -/
theorem search_exact_match_first_score_one_witness :
    "apple" ∈ ["apple"] ∧
      ((∃ r, (search "apple" ["apple"] defaultOptions).head? = some r ∧ r.score = 1) ∧
        (⟨"apple", 1⟩ : SearchResult) ∈ search "apple" ["apple"] defaultOptions) :=
  ⟨by decide, search_exact_match_first_score_one.1 "apple" ["apple"] (by decide)⟩

/-- C6: the sequence returned by search is sorted by score in descending
order, and results with equal score preserve the relative order of the
original candidate collection: filtering the output at any fixed score value
yields a sublist of the in-order scored candidate list. -/
theorem search_sorted_descending_stable (q : String) (cands : List String)
    (opts : SearchOptions) :
    ((search q cands opts).Pairwise fun x y => y.score ≤ x.score) ∧
      ∀ c : ℚ, List.Sublist
        ((search q cands opts).filter fun r => decide (r.score = c))
        (scoreAll q cands opts) := by
  refine ⟨search_pairwise q cands opts, ?_⟩
  intro c
  have h1 : List.Sublist ((search q cands opts).filter fun r => decide (r.score = c))
      ((sortDesc (keep opts (scoreAll q cands opts))).filter fun r =>
        decide (r.score = c)) :=
    (truncate_sublist _ _).filter _
  rw [filter_sortDesc] at h1
  exact h1.trans ((List.filter_sublist _).trans (List.filter_sublist _))

/-- C7: every returned result scores at least the threshold, every scored
candidate at or above the threshold appears in the results when no limit
truncates them, and in particular the threshold `1/2` leaves no result for
the query "xyz" over the test data. -/
theorem search_threshold_filtering :
    (∀ (q : String) (cands : List String) (opts : SearchOptions) (r : SearchResult),
        r ∈ search q cands opts → opts.threshold ≤ r.score) ∧
      (∀ (q : String) (cands : List String) (opts : SearchOptions) (r : SearchResult),
        opts.limit = none → r ∈ scoreAll q cands opts → opts.threshold ≤ r.score →
          r ∈ search q cands opts) ∧
      search "xyz" testData ⟨1/2, none, true, false⟩ = [] := by
  refine ⟨?_, ?_, by with_unfolding_all decide⟩
  · intro q cands opts r h
    exact (mem_of_mem_search h).2
  · intro q cands opts r hlim hmem hthr
    exact mem_search_of_mem hlim hmem hthr

/-- Witness for C7 at the concrete result `⟨"apple", 1⟩` of searching
"apple" in `["apple"]`. -/
theorem search_threshold_filtering_witness :
    (⟨"apple", 1⟩ : SearchResult) ∈ search "apple" ["apple"] defaultOptions ∧
      defaultOptions.threshold ≤ (⟨"apple", (1 : ℚ)⟩ : SearchResult).score :=
  ⟨by with_unfolding_all decide,
    search_threshold_filtering.1 "apple" ["apple"] defaultOptions ⟨"apple", 1⟩
      (by with_unfolding_all decide)⟩

/-- C8: with a limit the search returns at most that many results (truncation
happens after sorting, and C6 shows the output stays sorted); without a limit
nothing is truncated — the output is exactly as long as the kept candidate
list; in particular a limit of `3` yields at most `3` results. -/
theorem search_limit_truncation :
    (∀ (q : String) (cands : List String) (opts : SearchOptions) (n : ℕ),
        opts.limit = some n → (search q cands opts).length ≤ n) ∧
      (∀ (q : String) (cands : List String) (opts : SearchOptions),
        opts.limit = none →
          (search q cands opts).length = (keep opts (scoreAll q cands opts)).length) ∧
      (search "a" testData ⟨0, some 3, true, false⟩).length ≤ 3 := by
  refine ⟨?_, ?_, by with_unfolding_all decide⟩
  · intro q cands opts n hn
    unfold search
    rw [hn]
    show (List.take n _).length ≤ n
    rw [List.length_take]
    exact Nat.min_le_left n _
  · intro q cands opts hn
    unfold search
    rw [hn]
    show (sortDesc _).length = _
    exact (sortDesc_perm _).length_eq

/-- Witness for C8 at the concrete options with limit `3`. -/
theorem search_limit_truncation_witness :
    (⟨0, some 3, true, false⟩ : SearchOptions).limit = some 3 ∧
      (search "a" testData ⟨0, some 3, true, false⟩).length ≤ 3 :=
  ⟨rfl, search_limit_truncation.1 "a" testData ⟨0, some 3, true, false⟩ 3 rfl⟩

/-- C9: the `item` field of every result is the original candidate string
from the input collection, never the internally used case-folded or
normalized form; in particular searching "cafe" with normalization over
accented candidates returns the accented original "café" first. -/
theorem search_item_is_original :
    (∀ (q : String) (cands : List String) (opts : SearchOptions) (r : SearchResult),
        r ∈ search q cands opts → r.item ∈ cands) ∧
      (search "cafe" ["café", "naïve", "résumé"] ⟨0, none, true, true⟩).head? =
        some ⟨"café", 1⟩ := by
  refine ⟨?_, by with_unfolding_all decide⟩
  intro q cands opts r h
  exact item_mem_of_mem_scoreAll (mem_of_mem_search h).1

/-- Witness for C9 at the concrete result `⟨"café", 1⟩`. -/
theorem search_item_is_original_witness :
    (⟨"café", 1⟩ : SearchResult) ∈
        search "cafe" ["café", "naïve", "résumé"] ⟨0, none, true, true⟩ ∧
      (⟨"café", (1 : ℚ)⟩ : SearchResult).item ∈ ["café", "naïve", "résumé"] :=
  ⟨by with_unfolding_all decide,
    search_item_is_original.1 "cafe" ["café", "naïve", "résumé"] ⟨0, none, true, true⟩
      ⟨"café", 1⟩ (by with_unfolding_all decide)⟩

/-- C10: with `ignoreCase` set, case is folded before comparison, so a query
differing from a candidate only in letter case scores a perfect `1` against
it; in particular searching "APPLE" over the test data returns "apple" first
with score `1`. -/
theorem search_ignore_case_folds :
    (∀ (q c : String) (cands : List String) (opts : SearchOptions),
        opts.ignoreCase = true → caseFold q = caseFold c → c ∈ cands →
          (⟨c, 1⟩ : SearchResult) ∈ scoreAll q cands opts) ∧
      (search "APPLE" testData ⟨0, none, true, false⟩).head? = some ⟨"apple", 1⟩ := by
  refine ⟨?_, by with_unfolding_all decide⟩
  intro q c cands opts hic hfold hc
  exact self_mem_scoreAll hc (comparisonForm_eq_of_caseFold_eq hic hfold)

/-- Witness for C10 at the concrete query "APPLE" and candidate "apple". -/
theorem search_ignore_case_folds_witness :
    caseFold "APPLE" = caseFold "apple" ∧
      (⟨"apple", 1⟩ : SearchResult) ∈
        scoreAll "APPLE" ["apple"] ⟨0, none, true, false⟩ :=
  ⟨by decide,
    search_ignore_case_folds.1 "APPLE" "apple" ["apple"] ⟨0, none, true, false⟩
      rfl (by decide) (by decide)⟩

end FastFuzzy
